import Mathlib

/-!
Verification of the delta-observation core of the `ralph-mcp` repository
(TypeScript, Deno).  JavaScript strings are embedded as `List Char`; fallible
external calls (process spawning, filesystem, git) are embedded as explicit
outcome values (`Except Unit _`), with `Except.error` standing for a thrown
JS exception and `Except.ok` for a returned value.
-/

namespace RalphMcp

/-- JS strings are modelled as lists of characters. -/
abbrev Str := List Char

/-- Shorthand: turn a Lean string literal into the `Str` model. -/
def str (s : String) : Str := s.toList

/-- Result of `exec` (src/exec.ts): structured result of a shell command. -/
structure ExecResult where
  success : Bool
  stdout : Str
  stderr : Str
  code : Int
deriving DecidableEq, Repr

/-- An `exec` call either returns an `ExecResult` or throws (spawn failure). -/
abbrev ExecOutcome := Except Unit ExecResult

/-! ### JS string primitives used by the source -/

/-- The JS whitespace characters relevant to `String.prototype.trim`. -/
def jsWs (c : Char) : Bool :=
  c = ' ' || c = '\t' || c = '\n' || c = '\r' || c = '\x0b' || c = '\x0c'

/-- `String.prototype.trim`: strip leading and trailing whitespace. -/
def jsTrim (l : Str) : Str :=
  (((l.dropWhile jsWs).reverse).dropWhile jsWs).reverse

/-- `String.prototype.split(sep)` for a one-character separator.
`"".split(s)` is `[""]`, as in JS. -/
def splitOnChar (sep : Char) : Str → List Str
  | [] => [[]]
  | c :: rest =>
    match splitOnChar sep rest with
    | [] => [[]]
    | h :: t => if c = sep then [] :: h :: t else (c :: h) :: t

/-- Join a list of lines with a one-character separator (inverse of split). -/
def joinSep (sep : Char) : List Str → Str
  | [] => []
  | [l] => l
  | l :: ls => l ++ sep :: joinSep sep ls

/-- `String.prototype.indexOf` for one character, with `none` standing for
JS's `-1`. -/
def jsIndexOf (c : Char) : Str → Option Nat
  | [] => none
  | a :: rest => if a = c then some 0 else (jsIndexOf c rest).map (· + 1)

/-- `line.indexOf(" ")` followed by the two `substring` calls of
changes.ts (lines 178-182): split a line at its first space.  When the
line has no space, JS yields `substring(0,-1) = ""` and `substring(0)` =
the whole line. -/
def splitFirstSpace (l : Str) : Str × Str :=
  match jsIndexOf ' ' l with
  | some i => (l.take i, l.drop (i + 1))
  | none => ([], l)

/-! ### Data model (src/types.ts)

`verified?: boolean` distinguishes an absent field from a present `false`,
so it is `Option Bool`.  Fields typed `string | null` (and optional string
fields) are collapsed to `Option String`-style `Option Str`: absent and
`null` are indistinguishable to every use site in the source (all of which
test truthiness). -/

/-- A single user story in the PRD (src/types.ts). -/
structure UserStory where
  id : Str
  title : Str
  description : Str
  acceptanceCriteria : List Str
  priority : Int
  passes : Bool
  notes : Option Str := none
  claimed_by : Option Str := none
  claimed_at : Option Str := none
  verified : Option Bool := none
  verified_by : Option Str := none
  verified_at : Option Str := none
  verification_notes : Option Str := none
deriving DecidableEq, Repr

/-- The full PRD document (src/types.ts). -/
structure PRD where
  project : Str
  branchName : Option Str := none
  description : Option Str := none
  userStories : List UserStory
deriving DecidableEq, Repr

/-- JS truthiness of an optional string (`null`/absent and `""` are falsy). -/
def strTruthy : Option Str → Bool
  | none => false
  | some s => s ≠ []

/-- JS truthiness of the optional `verified` field (`undefined` and `false`
are falsy). -/
def verifiedTruthy : Option Bool → Bool
  | some b => b
  | none => false

/-! ### Story status and diff (src/tools/changes.ts, lines 33-69) -/

/-- `storyStatus` (changes.ts lines 33-37): the status the delta engine
derives for a story.  Note that it reads only `passes` and `claimed_by`. -/
def storyStatus (s : UserStory) : Str :=
  if s.passes then str "done"
  else if strTruthy s.claimed_by then
    match s.claimed_by with
    | some x => str "claimed by " ++ x
    | none => str "claimed by "
  else str "available"

/-- A story lifecycle transition reported by `diffStories`. -/
structure StoryTransition where
  id : Str
  title : Str
  slotFrom : Str
  slotTo : Str
deriving DecidableEq, Repr

/-- `oldMap.get(id)` where the map was filled by iterating the baseline's
stories with `set` (later entries overwrite earlier ones): the last story
carrying the identifier wins. -/
def lookupStory (stories : List UserStory) (i : Str) : Option UserStory :=
  stories.reverse.find? (fun s => s.id = i)

/-- The stories of an optional PRD (the map in changes.ts lines 45-50 is
filled from `oldPrd.userStories` when the baseline is present, else empty). -/
def storiesOf : Option PRD → List UserStory
  | none => []
  | some p => p.userStories

/-- `diffStories` (changes.ts lines 39-69). -/
def diffStories (oldPrd newPrd : Option PRD) : List StoryTransition :=
  match newPrd with
  | none => []
  | some np =>
    let oldStories := storiesOf oldPrd
    np.userStories.filterMap (fun s =>
      let prevStatus := match lookupStory oldStories s.id with
        | some prev => storyStatus prev
        | none => str "new"
      let currStatus := storyStatus s
      if prevStatus ≠ currStatus then
        some ⟨s.id, s.title, prevStatus, currStatus⟩
      else none)

/-! ### Grouped ledger read (src/tools/prd-read.ts, lines 27-37) -/

/-- `available` group (prd-read.ts line 27-29), before sorting. -/
def availableStories (prd : PRD) : List UserStory :=
  prd.userStories.filter (fun s => !s.passes && !strTruthy s.claimed_by)

/-- `claimed` group (prd-read.ts line 30). -/
def claimedStories (prd : PRD) : List UserStory :=
  prd.userStories.filter (fun s => !s.passes && strTruthy s.claimed_by)

/-- `verifying` group (prd-read.ts line 31). -/
def verifyingStories (prd : PRD) : List UserStory :=
  prd.userStories.filter (fun s => s.passes && !verifiedTruthy s.verified)

/-- `done` group (prd-read.ts line 32). -/
def doneStories (prd : PRD) : List UserStory :=
  prd.userStories.filter (fun s => s.passes && verifiedTruthy s.verified)

/-- `hasVerifiers` (prd-read.ts line 35): the snapshot-wide verification
toggle — true iff some story has the `verified` field present at all. -/
def hasVerifiers (prd : PRD) : Bool :=
  prd.userStories.any (fun s => s.verified.isSome)

/-- `effectiveDone` (prd-read.ts line 36). -/
def effectiveDone (prd : PRD) : List UserStory :=
  if hasVerifiers prd then doneStories prd
  else prd.userStories.filter (fun s => s.passes)

/-- `effectiveVerifying` (prd-read.ts line 37). -/
def effectiveVerifying (prd : PRD) : List UserStory :=
  if hasVerifiers prd then verifyingStories prd else []

/-- Modelled from the spec: the derived story status of section 3 of the
specification, parameterised by the snapshot-wide verification toggle —
`done` if the completion flag is set and (verification is not in use OR
this story is verified); `claimed by <X>` if not done and a claimant is
set; otherwise `available`.  This definition follows the spec's words and
exists to be compared with the source's `storyStatus`. -/
def specDerivedStatus (inUse : Bool) (s : UserStory) : Str :=
  if s.passes && (!inUse || verifiedTruthy s.verified) then str "done"
  else if strTruthy s.claimed_by then
    match s.claimed_by with
    | some x => str "claimed by " ++ x
    | none => str "claimed by "
  else str "available"

/-! ### Worker freshness classifier (src/tools/changes.ts, lines 202-223) -/

/-- A parsed `docker ps` line (changes.ts lines 5-9). -/
structure ContainerInfo where
  name : Str
  status : Str
  running_for : Str
deriving DecidableEq, Repr

/-- The time units of the uptime regex alternation. -/
inductive TimeUnit where
  | second
  | minute
  | hour
  | day
deriving DecidableEq, Repr

/-- Milliseconds per unit (changes.ts lines 211-219). -/
def unitMs : TimeUnit → Int
  | .second => 1000
  | .minute => 60000
  | .hour => 3600000
  | .day => 86400000

/-- Match the regex alternation `second|minute|hour|day` at the head of a
string. -/
def matchUnitWord (l : Str) : Option TimeUnit :=
  if l.take 6 = str "second" then some .second
  else if l.take 6 = str "minute" then some .minute
  else if l.take 4 = str "hour" then some .hour
  else if l.take 3 = str "day" then some .day
  else none

/-- `parseInt(match[1], 10)` on a digit run. -/
def digitsToNat (l : Str) : Nat :=
  l.foldl (fun acc c => acc * 10 + (c.toNat - '0'.toNat)) 0

/-- Match the regex `(\d+)\s*(second|minute|hour|day)` anchored at the head
of the string: a maximal digit run, optional whitespace, then a unit word.
Maximal munch is exact here because the unit words start with letters. -/
def matchUptimeAt (l : Str) : Option (Nat × TimeUnit) :=
  let digits := l.takeWhile Char.isDigit
  if digits = [] then none
  else
    match matchUnitWord ((l.drop digits.length).dropWhile jsWs) with
    | some u => some (digitsToNat digits, u)
    | none => none

/-- `c.running_for.match(/(\d+)\s*(second|minute|hour|day)/)` (changes.ts
lines 205-207): leftmost match of the uptime pattern. -/
def findUptimeMatch : Str → Option (Nat × TimeUnit)
  | [] => none
  | c :: rest =>
    match matchUptimeAt (c :: rest) with
    | some r => some r
    | none => findUptimeMatch rest

/-- `likelyNew` (changes.ts lines 202-223): names of the containers whose
parsed uptime is strictly below the elapsed time since `sinceTimestamp`.
`now` stands for `Date.now()`. -/
def likelyNewNames (containers : List ContainerInfo)
    (sinceTimestamp now : Int) : List Str :=
  (containers.filter (fun c =>
    match findUptimeMatch c.running_for with
    | none => false
    | some (v, u) => decide ((v : Int) * unitMs u < now - sinceTimestamp))).map
    (fun c => c.name)

/-! ### Log delta scanner (src/tools/changes.ts, lines 239-273) -/

/-- A directory entry as yielded by `Deno.readDir`. -/
structure DirEntry where
  name : Str
  isFile : Bool
deriving DecidableEq, Repr

/-- One bounded log summary (changes.ts lines 18-21). -/
structure LogEntry where
  file : Str
  last_lines : Str
deriving DecidableEq, Repr

/-- The value of `scanNewLogs`. -/
structure LogScanResult where
  new_count : Nat
  recent_summaries : List LogEntry
deriving DecidableEq, Repr

/-- `entry.name.endsWith(".log")`. -/
def endsWithLog (n : Str) : Bool :=
  n.drop (n.length - 4) = str ".log"

/-- The enumeration loop of `scanNewLogs` (changes.ts lines 245-254): walk
the directory entries in order, stat each qualifying file, and keep
`(name, mtime)` for files strictly newer than the reference timestamp.  A
throwing `stat` aborts the whole loop (it is inside the same `try`).
`stat` returning `.ok none` models a `null` mtime, coalesced to `0`. -/
def collectNewFiles (stat : Str → Except Unit (Option Int)) (since : Int) :
    List DirEntry → Except Unit (List (Str × Int))
  | [] => .ok []
  | e :: rest =>
    if e.isFile && endsWithLog e.name then
      match stat e.name with
      | .error u => .error u
      | .ok mt =>
        match collectNewFiles stat since rest with
        | .error u => .error u
        | .ok fs => .ok (if mt.getD 0 > since then (e.name, mt.getD 0) :: fs else fs)
    else collectNewFiles stat since rest

/-- Insert into a list already sorted by descending mtime, after any
element with an equal or larger mtime — the placement a stable sort
(JS `Array.prototype.sort` is stable) gives the comparator
`(a, b) => b.mtime - a.mtime`. -/
def insertByMtime (x : Str × Int) : List (Str × Int) → List (Str × Int)
  | [] => [x]
  | y :: ys => if x.2 > y.2 then x :: y :: ys else y :: insertByMtime x ys

/-- `newFiles.sort((a, b) => b.mtime - a.mtime)` (changes.ts line 260):
stable descending sort by mtime. -/
def sortByMtimeDesc (l : List (Str × Int)) : List (Str × Int) :=
  l.foldl (fun acc x => insertByMtime x acc) []

/-- `content.split("\n").slice(-10).join("\n")` (changes.ts lines 266-267). -/
def tailLines (content : Str) : Str :=
  let lines := splitOnChar '\n' content
  joinSep '\n' (lines.drop (lines.length - 10))

/-- `scanNewLogs` (changes.ts lines 239-273).  `dir = none` models a
directory that does not exist or cannot be enumerated; `content` models
`Deno.readTextFile`. -/
def scanNewLogs (dir : Option (List DirEntry))
    (stat : Str → Except Unit (Option Int)) (content : Str → Str)
    (sinceTimestamp : Int) : LogScanResult :=
  match dir with
  | none => ⟨0, []⟩
  | some entries =>
    match collectNewFiles stat sinceTimestamp entries with
    | .error _ => ⟨0, []⟩
    | .ok newFiles =>
      let top := (sortByMtimeDesc newFiles).take 5
      ⟨newFiles.length, top.map (fun p => ⟨p.1, tailLines (content p.1)⟩)⟩

/-- A directory entry qualifies when it is a `.log` file strictly newer
than the reference timestamp (under the stat view `statV`). -/
def qualifies (statV : Str → Option Int) (since : Int) (e : DirEntry) : Bool :=
  e.isFile && endsWithLog e.name && ((statV e.name).getD 0 > since)

/-! ### The shared bare repository as a commit DAG

Git history is embedded as a finite commit DAG: commits are natural-number
ids (topologically numbered, so every parent id is smaller than its
child's — git histories are acyclic), `refs` are the tips `--all` ranges
over, and `head` is what `HEAD` resolves to.  `hashOf`/`subjectOf`/
`dateOf`/`touchesPrd` carry the per-commit data the modelled git commands
report. -/

/-- A bare repository. -/
structure Repo where
  commits : List Nat
  parents : Nat → List Nat
  refs : List Nat
  head : Nat
  hashOf : Nat → Str
  subjectOf : Nat → Str
  touchesPrd : Nat → Bool
  dateOf : Nat → Int

/-- Well-formedness: parent edges stay inside the commit list and strictly
decrease, and `head` and every ref tip are commits. -/
abbrev Repo.WF (r : Repo) : Prop :=
  (∀ c ∈ r.commits, ∀ p ∈ r.parents c, p ∈ r.commits ∧ p < c) ∧
  r.head ∈ r.commits ∧ (∀ t ∈ r.refs, t ∈ r.commits)

/-- Fuelled ancestry walk: `b` is reachable from `a` following parent
edges, in at most `fuel` steps. -/
def reachesFuel (par : Nat → List Nat) : Nat → Nat → Nat → Bool
  | 0, _, _ => false
  | fuel + 1, a, b => a == b || (par a).any (fun p => reachesFuel par fuel p b)

/-- Reachability: since parent ids strictly decrease, any ancestry path
from `a` has at most `a + 1` nodes, so fuel `a + 1` is exact
(`reaches_iff_reachesProp` below makes this precise). -/
def reaches (par : Nat → List Nat) (a b : Nat) : Bool :=
  reachesFuel par (a + 1) a b

/-- Ancestry as an inductive relation, for the adequacy proof. -/
inductive ReachesProp (par : Nat → List Nat) : Nat → Nat → Prop where
  | refl (a : Nat) : ReachesProp par a a
  | step {a p b : Nat} : p ∈ par a → ReachesProp par p b → ReachesProp par a b

/-- `git log --oneline since..HEAD --all` (changes.ts line 147) ranges over
the commits reachable from `HEAD` or any ref but not from `since`. -/
def rangeAll (r : Repo) (since : Nat) : List Nat :=
  r.commits.filter (fun c =>
    ((r.head :: r.refs).any (fun t => reaches r.parents t c)) &&
      !(reaches r.parents since c))

/-- The stdout git produces for the range listing: one `<hash> <subject>`
line per commit in the range. -/
def gitLogStdout (r : Repo) (since : Nat) : Str :=
  joinSep '\n' ((rangeAll r since).map (fun c => r.hashOf c ++ ' ' :: r.subjectOf c))

/-- `.catch(() => ({ success: false, stdout: "", stderr: "", code: 1 }))`
(changes.ts lines 149 and 165): collapse a thrown exec into a failed
result. -/
def catchToFailed (o : ExecOutcome) : ExecResult :=
  match o with
  | .error _ => ⟨false, [], [], 1⟩
  | .ok r => r

/-- Parsing of the commit listing (changes.ts lines 172-184): trim, split
into lines, drop empties, split each line at its first space into
`(hash, message)`. -/
def parseOneline (stdout : Str) : List (Str × Str) :=
  ((splitOnChar '\n' (jsTrim stdout)).filter (fun l => l ≠ [])).map
    splitFirstSpace

/-- `new_commits` as assembled by the handler from the (caught) outcome of
the range-listing exec call (changes.ts lines 172-184). -/
def newCommitsOf (o : ExecOutcome) : List (Str × Str) :=
  if (catchToFailed o).success then parseOneline (catchToFailed o).stdout
  else []

/-- The handler's `new_commits` against a live repository: the range exec
call returns git's listing for `since..HEAD --all`. -/
def handlerNewCommits (r : Repo) (since : Nat) : List (Str × Str) :=
  newCommitsOf (.ok ⟨true, gitLogStdout r since, [], 0⟩)

/-- The handler's `latest_commit` (changes.ts lines 126-131): the trimmed
stdout of `git rev-parse HEAD`, i.e. the hash of `head`. -/
def handlerLatest (r : Repo) : Str := r.hashOf r.head

/-- Hygiene of a `<hash> <subject>` pair as git prints it: the hash is a
nonempty run of non-whitespace characters (hex in reality), and the
subject is nonempty, newline-free, and does not end in whitespace. -/
abbrev LineHygiene (p : Str × Str) : Prop :=
  p.1 ≠ [] ∧ (∀ ch ∈ p.1, jsWs ch = false) ∧
  p.2 ≠ [] ∧ '\n' ∉ p.2 ∧ (p.2.getLast?.all (fun ch => !jsWs ch)) = true

/-- Hygiene of a repository's printed hashes and subjects. -/
abbrev Repo.Hygiene (r : Repo) : Prop :=
  ∀ c ∈ r.commits, LineHygiene (r.hashOf c, r.subjectOf c)

/-- `r'` extends `r`: commits are append-only and the data of existing
commits is unchanged. -/
abbrev Repo.Extends (r r' : Repo) : Prop :=
  (∀ c ∈ r.commits, c ∈ r'.commits) ∧
  (∀ c ∈ r.commits, r'.parents c = r.parents c) ∧
  (∀ c ∈ r.commits, r'.hashOf c = r.hashOf c)

/-! ### Ref resolution (src/exec.ts, lines 62-71) -/

/-- `resolveLatestPrdRef` (exec.ts lines 62-71), as a function of the
outcome of its one exec call (`git log --all -1 --format=%H -- prd.json`).
The body has no try/catch, so a thrown exec propagates. -/
def resolveLatestPrdRef (o : ExecOutcome) : Except Unit Str :=
  match o with
  | .error e => .error e
  | .ok r =>
    if r.success && !(jsTrim r.stdout).isEmpty then .ok (jsTrim r.stdout)
    else .ok (str "HEAD")

/-- One step of the selection behind `git log --all -1`: keep the element
with the strictly larger measure, earlier elements winning ties. -/
def pickStep (f : Nat → Int) (best : Option Nat) (c : Nat) : Option Nat :=
  match best with
  | none => some c
  | some b => if f c > f b then some c else some b

/-- The selection loop behind `git log --all -1`. -/
def pickLatestBy (f : Nat → Int) (l : List Nat) : Option Nat :=
  l.foldl (pickStep f) none

/-- The commit `git log --all -1 --format=%H -- prd.json` reports: among
the commits reachable from some ref that touch `prd.json`, one with the
maximal commit date (ties broken by list order, matching git's own
unspecified-order tie-break); none when no such commit exists. -/
def latestPrdToucher (r : Repo) : Option Nat :=
  pickLatestBy r.dateOf
    (r.commits.filter (fun c =>
      (r.refs.any (fun t => reaches r.parents t c)) && r.touchesPrd c))

/-- The exec outcome the ref-resolution command produces against a live
repository: the hash of the latest `prd.json`-touching commit, or a
successful empty result when none exists. -/
def prdRefExecOutcome (r : Repo) : ExecOutcome :=
  match latestPrdToucher r with
  | some c => .ok ⟨true, r.hashOf c, [], 0⟩
  | none => .ok ⟨true, [], [], 0⟩

/-! ### Aggregator resolution fallbacks (src/tools/changes.ts, lines 113-140) -/

/-- The digit-prefix part of `parseInt`. -/
def parseDigitsAt (l : Str) : Option Nat :=
  let ds := l.takeWhile Char.isDigit
  if ds = [] then none else some (digitsToNat ds)

/-- `parseInt(s, 10)`: skip whitespace, optional sign, then a maximal
digit prefix; `none` models `NaN`. -/
def jsParseInt (l : Str) : Option Int :=
  let l' := l.dropWhile jsWs
  match l' with
  | '-' :: rest => (parseDigitsAt rest).map (fun n => -(n : Int))
  | '+' :: rest => (parseDigitsAt rest).map (fun n => (n : Int))
  | _ => (parseDigitsAt l').map (fun n => (n : Int))

/-- Resolution of `since_commit` (changes.ts lines 114-123): a truthy
argument is used as-is; otherwise the first line of
`git rev-list --max-parents=0 HEAD` when that call returns success, else
the literal `HEAD`.  The call is not guarded, so a thrown exec
propagates. -/
def resolveSinceCommit (argSince : Option Str) (rootExec : ExecOutcome) :
    Except Unit Str :=
  if strTruthy argSince then .ok (argSince.getD [])
  else
    match rootExec with
    | .error u => .error u
    | .ok r =>
      .ok (if r.success then (splitOnChar '\n' (jsTrim r.stdout)).headD []
        else str "HEAD")

/-- Resolution of the `since_commit` timestamp (changes.ts lines 134-140):
`parseInt(stdout.trim(), 10) * 1000` on success, epoch `0` on a returned
failure; `none` models a `NaN` from unparseable output.  The call is not
guarded, so a thrown exec propagates. -/
def resolveSinceTimestamp (tsExec : ExecOutcome) : Except Unit (Option Int) :=
  match tsExec with
  | .error u => .error u
  | .ok r =>
    .ok (if r.success then (jsParseInt (jsTrim r.stdout)).map (· * 1000)
      else some 0)

/-- The stdout of `git rev-list --max-parents=0 HEAD`: the parentless
commits reachable from `HEAD`, one hash per line. -/
def rootListStdout (r : Repo) : Str :=
  joinSep '\n'
    ((r.commits.filter (fun c =>
        reaches r.parents r.head c && (r.parents c).isEmpty)).map r.hashOf)

/-! ### PRD mutation (src/tools/prd-update.ts, lines 74-104) -/

/-- The `story` argument of `ralph_prd_update` (`Partial<UserStory>` plus a
mandatory id). -/
structure StoryInput where
  id : Str
  title : Option Str := none
  description : Option Str := none
  acceptanceCriteria : Option (List Str) := none
  priority : Option Int := none
  notes : Option Str := none
  verified : Option Bool := none
deriving DecidableEq, Repr

/-- The story object `add_story` builds (prd-update.ts lines 85-100):
`passes: false`, `claimed_by: null`, `verified: false` (present), and a
defaulted priority of one past the maximum (floored at 0). -/
def mkNewStory (prd : PRD) (s : StoryInput) : UserStory :=
  { id := s.id,
    title := s.title.getD [],
    description := s.description.getD [],
    acceptanceCriteria := s.acceptanceCriteria.getD [],
    priority := s.priority.getD
      ((prd.userStories.map (fun st => st.priority)).foldl max 0 + 1),
    passes := false,
    notes := some (s.notes.getD []),
    claimed_by := none,
    claimed_at := none,
    verified := some false,
    verified_by := none,
    verified_at := none,
    verification_notes := none }

/-- The `add_story` case of the update handler (prd-update.ts lines
75-104), as the pure ledger transformation it commits: validate the
required fields (JS truthiness: a missing or empty title/description is
rejected; an acceptance-criteria array of any length passes), reject a
duplicate id, and append the new story. -/
def addStory (prd : PRD) (s : StoryInput) : Except Str PRD :=
  if !strTruthy s.title || !strTruthy s.description ||
      s.acceptanceCriteria.isNone then
    .error (str "add_story requires title, description, and acceptanceCriteria")
  else
    match prd.userStories.find? (fun st => st.id = s.id) with
    | some _ => .error (str "Story " ++ s.id ++ str " already exists")
    | none => .ok { prd with userStories := prd.userStories ++ [mkNewStory prd s] }

/-! ### Ledger reading (src/tools/prd-read.ts, lines 90-115) -/

/-- The external outcomes `readPrd` depends on: `Deno.stat` of the bare
repo, the ref-resolution exec, the `git show` exec, the working-directory
file read, and the JSON parser (`parse` returning `none` models
`JSON.parse` throwing on malformed content). -/
structure ReadPrdEnv where
  statRepo : Except Unit Unit
  refExec : ExecOutcome
  showExec : ExecOutcome
  readWd : Except Unit Str
  parse : Str → Option PRD

/-- The first `try` block of `readPrd` (prd-read.ts lines 94-106): stat
the bare repo, resolve the ref, `git show <ref>:prd.json`, and parse.
`.error` is a thrown exception inside the block; `.ok none` is the
fall-through past the `if (result.success)` without returning. -/
def readPrdStep1 (e : ReadPrdEnv) : Except Unit (Option PRD) :=
  match e.statRepo with
  | .error u => .error u
  | .ok _ =>
    match resolveLatestPrdRef e.refExec with
    | .error u => .error u
    | .ok _ =>
      match e.showExec with
      | .error u => .error u
      | .ok r =>
        if r.success then
          match e.parse r.stdout with
          | some p => .ok (some p)
          | none => .error ()
        else .ok none

/-- The working-directory fallback (prd-read.ts lines 109-114): read
`<project_dir>/prd.json` and parse it, with every failure caught into
`null`. -/
def readPrdFallback (e : ReadPrdEnv) : Option PRD :=
  match e.readWd with
  | .error _ => none
  | .ok txt => e.parse txt

/-- `readPrd` (prd-read.ts lines 90-115): the bare-repo read, falling back
to the working directory whenever the first block throws or falls
through; every exceptional path is caught, so the result is a plain
`Option`. -/
def readPrd (e : ReadPrdEnv) : Option PRD :=
  match readPrdStep1 e with
  | .ok (some p) => some p
  | _ => readPrdFallback e

/-! ### Concrete snapshots for counterexamples -/

/-- A baseline story: unclaimed, not passing, no `verified` field. -/
def exC1Base : UserStory :=
  { id := str "US-1", title := str "T", description := str "d",
    acceptanceCriteria := [], priority := 1, passes := false }

/-- The same story later: passing, claimant absent, `verified` present and
`false` — so the snapshot containing it has verification in use. -/
def exC1Cur : UserStory :=
  { exC1Base with passes := true, verified := some false }

/-- Baseline snapshot for the C1 counterexample. -/
def exC1BasePrd : PRD := { project := str "p", userStories := [exC1Base] }

/-- Current snapshot for the C1 counterexample. -/
def exC1CurPrd : PRD := { project := str "p", userStories := [exC1Cur] }

/-- Current story for the C7 counterexample: brand new, passing, `verified`
present and `false`. -/
def exC7Cur : UserStory :=
  { id := str "US-2", title := str "U", description := str "d",
    acceptanceCriteria := [], priority := 2, passes := true,
    verified := some false }

/-- Current snapshot for the C7 counterexample. -/
def exC7CurPrd : PRD := { project := str "q", userStories := [exC7Cur] }

/-- Counterexample repository for C2: root commit `0`, `HEAD` on commit
`1`, and a side-branch commit `2` never merged into `HEAD` (exactly the
shape the system's workers produce). -/
def exRepo : Repo :=
  { commits := [0, 1, 2],
    parents := fun n => if n = 0 then [] else [0],
    refs := [1, 2],
    head := 1,
    hashOf := fun n => if n = 0 then str "c0" else if n = 1 then str "c1"
      else str "c2",
    subjectOf := fun _ => str "m",
    touchesPrd := fun _ => false,
    dateOf := fun _ => 0 }

/-- A linear two-commit repository (witness baseline for amended C2). -/
def rlin : Repo :=
  { commits := [0, 1],
    parents := fun n => if n = 1 then [0] else [],
    refs := [1],
    head := 1,
    hashOf := fun n => if n = 0 then str "h0" else if n = 1 then str "h1"
      else str "h2",
    subjectOf := fun _ => str "s",
    touchesPrd := fun _ => false,
    dateOf := fun _ => 0 }

/-- `rlin` after one more commit was pushed on top (witness for amended
C2). -/
def rlinNext : Repo :=
  { commits := [0, 1, 2],
    parents := fun n => if n = 1 then [0] else if n = 2 then [1] else [],
    refs := [2],
    head := 2,
    hashOf := fun n => if n = 0 then str "h0" else if n = 1 then str "h1"
      else str "h2",
    subjectOf := fun _ => str "s",
    touchesPrd := fun _ => false,
    dateOf := fun _ => 0 }

/-- A pre-existing passing story with no `verified` field (C10 witness). -/
def exOldPassing : UserStory :=
  { id := str "US-0", title := str "Old", description := str "d",
    acceptanceCriteria := [], priority := 3, passes := true }

/-- A ledger holding only `exOldPassing` (C10 witness). -/
def exAddBase : PRD := { project := str "p", userStories := [exOldPassing] }

/-- A valid `add_story` input (C10 witness). -/
def exAddInput : StoryInput :=
  { id := str "US-7", title := some (str "New"),
    description := some (str "nd"), acceptanceCriteria := some [str "a"] }

/-- The ledger `add_story` produces from `exAddBase` and `exAddInput`
(C10 witness). -/
def exAddResult : PRD :=
  match addStory exAddBase exAddInput with
  | .ok p => p
  | .error _ => exAddBase

/-! ### Theorems about status derivation and the story diff -/

/-- Truthiness of the optional `verified` field holds exactly when the
field is present and `true`. -/
theorem verifiedTruthy_eq_some_true {o : Option Bool} :
    verifiedTruthy o = true ↔ o = some true := by
  cases o with
  | none => simp [verifiedTruthy]
  | some b => cases b <;> simp [verifiedTruthy]

/-- `storyStatus` never yields the literal status `"new"`. -/
theorem storyStatus_ne_new (s : UserStory) : storyStatus s ≠ str "new" := by
  unfold storyStatus
  by_cases hp : s.passes
  · simp [hp]; decide
  · simp [hp]
    by_cases hc : strTruthy s.claimed_by
    · simp [hc]
      cases h : s.claimed_by with
      | none => decide
      | some x => intro hcon; have := congrArg List.length hcon; simp [str] at this
    · simp [hc]; decide

/-- Claim C1 — counterexample.  The status function the delta engine
(`diffStories` in changes.ts) evaluates is `storyStatus`, which derives
`"done"` from the completion flag alone; on a snapshot where verification
is in use and the story is unverified, the claimed formula (the spec's
derived status) yields `"available"` instead, so the claimed snapshot-wide
rule is not what the diff compares: the diff reports a transition
`available → done` that the claimed rule would not produce. -/
theorem c1_counterexample :
    storyStatus exC1Cur = str "done" ∧
    hasVerifiers exC1CurPrd = true ∧
    specDerivedStatus (hasVerifiers exC1CurPrd) exC1Cur = str "available" ∧
    storyStatus exC1Cur ≠ specDerivedStatus (hasVerifiers exC1CurPrd) exC1Cur ∧
    diffStories (some exC1BasePrd) (some exC1CurPrd) =
      [⟨str "US-1", str "T", str "available", str "done"⟩] := by
  refine ⟨rfl, rfl, rfl, by decide, rfl⟩

/-- Membership in the effective `done` group of the grouped ledger read:
passing, and verified whenever the snapshot-wide toggle is on. -/
theorem mem_effectiveDone_iff (prd : PRD) (s : UserStory) :
    s ∈ effectiveDone prd ↔
      s ∈ prd.userStories ∧ s.passes = true ∧
        (hasVerifiers prd = true → s.verified = some true) := by
  unfold effectiveDone doneStories
  by_cases hv : hasVerifiers prd = true
  · rw [if_pos hv]
    simp only [List.mem_filter, Bool.and_eq_true]
    constructor
    · rintro ⟨hm, hp, hvt⟩
      exact ⟨hm, hp, fun _ => verifiedTruthy_eq_some_true.mp hvt⟩
    · rintro ⟨hm, hp, himp⟩
      exact ⟨hm, hp, by rw [himp hv]; rfl⟩
  · rw [if_neg hv]
    simp only [List.mem_filter]
    constructor
    · rintro ⟨hm, hp⟩
      exact ⟨hm, hp, fun h => absurd h hv⟩
    · rintro ⟨hm, hp, _⟩; exact ⟨hm, hp⟩

/-- Membership in the effective `verifying` group of the grouped ledger
read: toggle on, passing, and not verified. -/
theorem mem_effectiveVerifying_iff (prd : PRD) (s : UserStory) :
    s ∈ effectiveVerifying prd ↔
      hasVerifiers prd = true ∧ s ∈ prd.userStories ∧ s.passes = true ∧
        s.verified ≠ some true := by
  unfold effectiveVerifying verifyingStories
  by_cases hv : hasVerifiers prd = true
  · rw [if_pos hv]
    simp only [List.mem_filter, Bool.and_eq_true]
    constructor
    · rintro ⟨hm, hp, hvt⟩
      refine ⟨hv, hm, hp, fun h => ?_⟩
      rw [h] at hvt
      simp [verifiedTruthy] at hvt
    · rintro ⟨_, hm, hp, hne⟩
      refine ⟨hm, hp, ?_⟩
      cases h : s.verified with
      | none => rfl
      | some b =>
        cases b with
        | false => rfl
        | true => exact absurd h hne
  · rw [if_neg hv]
    constructor
    · intro h; exact absurd h (List.not_mem_nil s)
    · rintro ⟨h, _⟩; exact absurd h hv

/-- Claim C1 — amended.  The delta engine's status (`storyStatus`,
changes.ts) is a pure function of `passes` and `claimed_by` alone and does
not consult the verification field at all; the snapshot-wide verification
toggle of the claim is applied only by the grouped ledger read
(prd-read.ts), where `hasVerifiers` is computed once per snapshot and the
effective `done`/`verifying` groups follow exactly the claimed rule
(`done` iff passes and (toggle off or verified)) uniformly for every story
in the snapshot. -/
theorem c1_amended :
    (∀ (s : UserStory) (v : Option Bool),
      storyStatus { s with verified := v } = storyStatus s) ∧
    (∀ (prd : PRD) (s : UserStory),
      s ∈ effectiveDone prd ↔
        s ∈ prd.userStories ∧ s.passes = true ∧
          (hasVerifiers prd = true → s.verified = some true)) ∧
    (∀ (prd : PRD) (s : UserStory),
      s ∈ effectiveVerifying prd ↔
        hasVerifiers prd = true ∧ s ∈ prd.userStories ∧ s.passes = true ∧
          s.verified ≠ some true) :=
  ⟨fun _ _ => rfl, fun prd s => mem_effectiveDone_iff prd s,
   fun prd s => mem_effectiveVerifying_iff prd s⟩

/-- Claim C7 — counterexample.  A story new in the current snapshot is
reported with `from = "new"`, but its `to` is `storyStatus`, not the
spec's derived status under the current snapshot: here the current
snapshot has verification in use and the new story is unverified, so its
derived status is `"available"`, while the emitted transition's `to` is
`"done"`. -/
theorem c7_counterexample :
    diffStories none (some exC7CurPrd) =
      [⟨str "US-2", str "U", str "new", str "done"⟩] ∧
    hasVerifiers exC7CurPrd = true ∧
    specDerivedStatus (hasVerifiers exC7CurPrd) exC7Cur = str "available" ∧
    (str "done" : Str) ≠ str "available" := by
  refine ⟨rfl, rfl, rfl, by decide⟩

/-- Claim C7 — amended.  If the current snapshot is absent, `diffStories`
returns the empty list; and every story of the current snapshot whose
identifier has no counterpart in the baseline is emitted with
`from = "new"` and `to` equal to `storyStatus` — the diff's own status
function of `passes`/`claimed_by` alone, not the toggle-aware derived
status of the spec. -/
theorem c7_amended :
    (∀ oldPrd : Option PRD, diffStories oldPrd none = []) ∧
    (∀ (oldPrd : Option PRD) (np : PRD) (s : UserStory),
      s ∈ np.userStories →
      lookupStory (storiesOf oldPrd) s.id = none →
      (⟨s.id, s.title, str "new", storyStatus s⟩ : StoryTransition) ∈
        diffStories oldPrd (some np)) := by
  constructor
  · intro oldPrd; rfl
  · intro oldPrd np s hs hlook
    unfold diffStories
    rw [List.mem_filterMap]
    refine ⟨s, hs, ?_⟩
    rw [hlook]
    simp only [ne_eq, ite_not]
    rw [if_neg]
    exact fun h => storyStatus_ne_new s h.symm

/-- Witness for the amended C7 theorem at a concrete input: the diff of an
absent baseline against a one-story snapshot contains the `new → done`
transition, and an absent current snapshot diffs to the empty list. -/
theorem c7_amended_witness :
    (⟨str "US-2", str "U", str "new", storyStatus exC7Cur⟩ : StoryTransition) ∈
      diffStories none (some exC7CurPrd) ∧
    diffStories (some exC7CurPrd) none = [] :=
  ⟨c7_amended.2 none exC7CurPrd exC7Cur (by decide) (by decide),
   c7_amended.1 (some exC7CurPrd)⟩

/-- Claim C9 — every transition reported by `diffStories` carries the
identifier (and title) of a story present in the current snapshot, and a
story present only in the baseline produces no transition at all. -/
theorem c9_transitions_from_current :
    (∀ (oldPrd newPrd : Option PRD) (t : StoryTransition),
      t ∈ diffStories oldPrd newPrd →
      ∃ s, s ∈ storiesOf newPrd ∧ s.id = t.id ∧ s.title = t.title) ∧
    (∀ (oldPrd newPrd : Option PRD) (x : UserStory),
      x ∈ storiesOf oldPrd →
      (∀ s, s ∈ storiesOf newPrd → s.id ≠ x.id) →
      ∀ t, t ∈ diffStories oldPrd newPrd → t.id ≠ x.id) := by
  have main : ∀ (oldPrd newPrd : Option PRD) (t : StoryTransition),
      t ∈ diffStories oldPrd newPrd →
      ∃ s, s ∈ storiesOf newPrd ∧ s.id = t.id ∧ s.title = t.title := by
    intro oldPrd newPrd t ht
    cases newPrd with
    | none => exact absurd ht (List.not_mem_nil t)
    | some np =>
      unfold diffStories at ht
      rw [List.mem_filterMap] at ht
      obtain ⟨s, hs, hf⟩ := ht
      refine ⟨s, hs, ?_, ?_⟩
      · by_cases hc : (match lookupStory (storiesOf oldPrd) s.id with
          | some prev => storyStatus prev
          | none => str "new") ≠ storyStatus s
        · rw [if_pos hc] at hf
          cases hf; rfl
        · rw [if_neg hc] at hf; cases hf
      · by_cases hc : (match lookupStory (storiesOf oldPrd) s.id with
          | some prev => storyStatus prev
          | none => str "new") ≠ storyStatus s
        · rw [if_pos hc] at hf
          cases hf; rfl
        · rw [if_neg hc] at hf; cases hf
  refine ⟨main, ?_⟩
  intro oldPrd newPrd x _ hnone t ht heq
  obtain ⟨s, hs, hid, _⟩ := main oldPrd newPrd t ht
  exact hnone s hs (hid.trans heq)

/-- Witness for C9 at a concrete input: the single transition produced by
an absent baseline and a one-story snapshot names that story. -/
theorem c9_witness :
    ∃ s, s ∈ storiesOf (some exC7CurPrd) ∧
      s.id = (⟨str "US-2", str "U", str "new", str "done"⟩ : StoryTransition).id ∧
      s.title = (⟨str "US-2", str "U", str "new", str "done"⟩ : StoryTransition).title :=
  c9_transitions_from_current.1 none (some exC7CurPrd)
    ⟨str "US-2", str "U", str "new", str "done"⟩ (by decide)

/-- Claim C6 — the freshness classifier flags a worker iff its uptime
string contains an `<integer> <unit>` match whose value in milliseconds is
strictly below the elapsed time between the reference instant and now;
non-matching uptime strings are never flagged (the classifier is a total
function, so it never errors); and under a 60000 ms window, `"45 seconds"`
is flagged while `"90 seconds"` is not. -/
theorem c6_freshness :
    (∀ (cs : List ContainerInfo) (since now : Int) (n : Str),
      n ∈ likelyNewNames cs since now →
      ∃ c, c ∈ cs ∧ c.name = n ∧
        ∃ v u, findUptimeMatch c.running_for = some (v, u) ∧
          (v : Int) * unitMs u < now - since) ∧
    (∀ (cs : List ContainerInfo) (since now : Int) (c : ContainerInfo)
      (v : Nat) (u : TimeUnit),
      c ∈ cs → findUptimeMatch c.running_for = some (v, u) →
      (v : Int) * unitMs u < now - since →
      c.name ∈ likelyNewNames cs since now) ∧
    likelyNewNames [⟨str "w1", str "Up", str "Up 45 seconds"⟩] 0 60000 =
      [str "w1"] ∧
    likelyNewNames [⟨str "w2", str "Up", str "Up 90 seconds"⟩] 0 60000 = [] := by
  refine ⟨?_, ?_, by decide, by decide⟩
  · intro cs since now n hn
    unfold likelyNewNames at hn
    rw [List.mem_map] at hn
    obtain ⟨c, hc, hname⟩ := hn
    rw [List.mem_filter] at hc
    refine ⟨c, hc.1, hname, ?_⟩
    have hp := hc.2
    cases hm : findUptimeMatch c.running_for with
    | none => rw [hm] at hp; exact absurd hp (by simp)
    | some r =>
      rw [hm] at hp
      exact ⟨r.1, r.2, rfl, of_decide_eq_true hp⟩
  · intro cs since now c v u hc hm hlt
    unfold likelyNewNames
    rw [List.mem_map]
    refine ⟨c, ?_, rfl⟩
    rw [List.mem_filter]
    exact ⟨hc, by rw [hm]; exact decide_eq_true hlt⟩

/-- Witness for C6 at a concrete input: a worker whose uptime string parses
to 45 seconds is flagged under a 60000 ms window. -/
theorem c6_witness :
    (str "w3") ∈
      likelyNewNames [⟨str "w3", str "Up", str "Up 45 seconds"⟩] 0 60000 :=
  c6_freshness.2.1 [⟨str "w3", str "Up", str "Up 45 seconds"⟩] 0 60000
    ⟨str "w3", str "Up", str "Up 45 seconds"⟩ 45 .second (by decide)
    (by decide) (by decide)

/-! ### Lemmas about the log scanner -/

/-- Inserting by mtime yields a permutation of consing. -/
theorem insertByMtime_perm (x : Str × Int) (l : List (Str × Int)) :
    (insertByMtime x l).Perm (x :: l) := by
  induction l with
  | nil => exact List.Perm.refl _
  | cons y ys ih =>
    unfold insertByMtime
    by_cases h : x.2 > y.2
    · rw [if_pos h]
    · rw [if_neg h]
      exact (List.Perm.cons y ih).trans (List.Perm.swap x y ys)

/-- The fold implementing the sort permutes its input. -/
theorem foldl_insertByMtime_perm (l acc : List (Str × Int)) :
    (l.foldl (fun a x => insertByMtime x a) acc).Perm (acc ++ l) := by
  induction l generalizing acc with
  | nil => simp
  | cons x xs ih =>
    simp only [List.foldl_cons]
    refine (ih (insertByMtime x acc)).trans ?_
    refine (List.Perm.append_right xs (insertByMtime_perm x acc)).trans ?_
    exact List.perm_middle.symm

/-- The sort of changes.ts line 260 permutes its input. -/
theorem sortByMtimeDesc_perm (l : List (Str × Int)) :
    (sortByMtimeDesc l).Perm l := by
  simpa using foldl_insertByMtime_perm l []

/-- Membership in an insertion. -/
theorem mem_insertByMtime {a x : Str × Int} {l : List (Str × Int)} :
    a ∈ insertByMtime x l ↔ a = x ∨ a ∈ l := by
  rw [(insertByMtime_perm x l).mem_iff, List.mem_cons]

/-- Insertion preserves descending-by-mtime sortedness. -/
theorem insertByMtime_sorted {x : Str × Int} {l : List (Str × Int)}
    (h : l.Pairwise (fun a b => b.2 ≤ a.2)) :
    (insertByMtime x l).Pairwise (fun a b => b.2 ≤ a.2) := by
  induction l with
  | nil => simp [insertByMtime]
  | cons y ys ih =>
    unfold insertByMtime
    rw [List.pairwise_cons] at h
    by_cases hxy : x.2 > y.2
    · rw [if_pos hxy]
      rw [List.pairwise_cons]
      refine ⟨?_, List.pairwise_cons.mpr h⟩
      intro z hz
      rcases List.mem_cons.mp hz with hzy | hzys
      · rw [hzy]; exact le_of_lt hxy
      · exact le_trans (h.1 z hzys) (le_of_lt hxy)
    · rw [if_neg hxy]
      rw [List.pairwise_cons]
      refine ⟨?_, ih h.2⟩
      intro z hz
      rcases mem_insertByMtime.mp hz with hzx | hzys
      · rw [hzx]; exact le_of_not_lt hxy
      · exact h.1 z hzys

/-- The fold implementing the sort yields a descending list. -/
theorem foldl_insertByMtime_sorted (l acc : List (Str × Int))
    (h : acc.Pairwise (fun a b => b.2 ≤ a.2)) :
    (l.foldl (fun a x => insertByMtime x a) acc).Pairwise
      (fun a b => b.2 ≤ a.2) := by
  induction l generalizing acc with
  | nil => exact h
  | cons x xs ih =>
    simp only [List.foldl_cons]
    exact ih (insertByMtime x acc) (insertByMtime_sorted h)

/-- The sorted file list is descending by mtime. -/
theorem sortByMtimeDesc_sorted (l : List (Str × Int)) :
    (sortByMtimeDesc l).Pairwise (fun a b => b.2 ≤ a.2) :=
  foldl_insertByMtime_sorted l [] (List.Pairwise.nil)

/-- When every stat call returns, the enumeration loop collects exactly the
qualifying files, in directory order. -/
theorem collectNewFiles_eq (stat : Str → Except Unit (Option Int))
    (statV : Str → Option Int) (since : Int)
    (hstat : ∀ n, stat n = .ok (statV n)) (entries : List DirEntry) :
    collectNewFiles stat since entries =
      .ok ((entries.filter (qualifies statV since)).map
        (fun e => (e.name, (statV e.name).getD 0))) := by
  induction entries with
  | nil => rfl
  | cons e rest ih =>
    unfold collectNewFiles
    by_cases hq : (e.isFile && endsWithLog e.name) = true
    · rw [if_pos hq, hstat e.name, ih]
      by_cases hnew : ((statV e.name).getD 0 > since)
      · have hqual : qualifies statV since e = true := by
          unfold qualifies
          rw [Bool.and_eq_true, hq]
          exact ⟨rfl, decide_eq_true hnew⟩
        simp [List.filter_cons, hqual, hnew]
      · have hqual : qualifies statV since e = false := by
          unfold qualifies
          rw [Bool.and_eq_false_iff]
          right
          exact decide_eq_false hnew
        simp [List.filter_cons, hqual, hnew]
    · rw [if_neg hq, ih]
      have hqual : qualifies statV since e = false := by
        unfold qualifies
        rw [Bool.and_eq_false_iff]
        left
        exact (Bool.not_eq_true _).mp hq
      simp [List.filter_cons, hqual]

/-- Claim C5 — `scanNewLogs`: under a total stat view, `new_count` is the
unbounded number of qualifying files; the summaries are the at-most-5
most-recently-modified qualifying files in descending mtime order, each
reduced to the last 10 lines of its content; an un-enumerable directory
yields `{new_count: 0, recent_summaries: []}`. -/
theorem c5_scanNewLogs (entries : List DirEntry)
    (stat : Str → Except Unit (Option Int)) (statV : Str → Option Int)
    (content : Str → Str) (since : Int)
    (hstat : ∀ n, stat n = .ok (statV n)) :
    (scanNewLogs (some entries) stat content since).new_count =
      (entries.filter (qualifies statV since)).length ∧
    (scanNewLogs (some entries) stat content since).recent_summaries =
      ((sortByMtimeDesc ((entries.filter (qualifies statV since)).map
          (fun e => (e.name, (statV e.name).getD 0)))).take 5).map
        (fun p => ⟨p.1, tailLines (content p.1)⟩) ∧
    (scanNewLogs (some entries) stat content since).recent_summaries.length =
      min 5 (entries.filter (qualifies statV since)).length ∧
    (sortByMtimeDesc ((entries.filter (qualifies statV since)).map
        (fun e => (e.name, (statV e.name).getD 0)))).Perm
      ((entries.filter (qualifies statV since)).map
        (fun e => (e.name, (statV e.name).getD 0))) ∧
    (sortByMtimeDesc ((entries.filter (qualifies statV since)).map
        (fun e => (e.name, (statV e.name).getD 0)))).Pairwise
      (fun a b => b.2 ≤ a.2) ∧
    (∀ x ∈ (sortByMtimeDesc ((entries.filter (qualifies statV since)).map
        (fun e => (e.name, (statV e.name).getD 0)))).take 5,
      ∀ y ∈ (sortByMtimeDesc ((entries.filter (qualifies statV since)).map
        (fun e => (e.name, (statV e.name).getD 0)))).drop 5, y.2 ≤ x.2) ∧
    (∀ c : Str, ((splitOnChar '\n' c).drop
        ((splitOnChar '\n' c).length - 10)).length ≤ 10) ∧
    scanNewLogs none stat content since = ⟨0, []⟩ := by
  have hq := collectNewFiles_eq stat statV since hstat entries
  have hscan : scanNewLogs (some entries) stat content since =
      ⟨((entries.filter (qualifies statV since)).map
          (fun e => (e.name, (statV e.name).getD 0))).length,
        ((sortByMtimeDesc ((entries.filter (qualifies statV since)).map
            (fun e => (e.name, (statV e.name).getD 0)))).take 5).map
          (fun p => ⟨p.1, tailLines (content p.1)⟩)⟩ := by
    simp only [scanNewLogs, hq]
  have hperm := sortByMtimeDesc_perm ((entries.filter (qualifies statV since)).map
    (fun e => (e.name, (statV e.name).getD 0)))
  have hsorted := sortByMtimeDesc_sorted ((entries.filter (qualifies statV since)).map
    (fun e => (e.name, (statV e.name).getD 0)))
  refine ⟨?_, ?_, ?_, hperm, hsorted, ?_, ?_, rfl⟩
  · rw [hscan]
    simp
  · rw [hscan]
  · rw [hscan]
    simp only [List.length_map, List.length_take]
    rw [hperm.length_eq]
    simp
  · intro x hx y hy
    have := List.take_append_drop 5 (sortByMtimeDesc ((entries.filter
      (qualifies statV since)).map (fun e => (e.name, (statV e.name).getD 0))))
    rw [← this] at hsorted
    exact (List.pairwise_append.mp hsorted).2.2 x hx y hy
  · intro c
    simp only [List.length_drop]
    omega

/-- Witness for C5 at a concrete input: of five directory entries, the
three `.log` regular files with mtime newer than the reference are
counted. -/
theorem c5_witness :
    (scanNewLogs (some [⟨str "a.log", true⟩, ⟨str "b.txt", true⟩,
        ⟨str "c.log", true⟩, ⟨str "d.log", false⟩, ⟨str "e.log", true⟩])
      (fun n => .ok (some (n.length))) (fun _ => str "x") 4).new_count = 3 :=
  (c5_scanNewLogs [⟨str "a.log", true⟩, ⟨str "b.txt", true⟩,
      ⟨str "c.log", true⟩, ⟨str "d.log", false⟩, ⟨str "e.log", true⟩]
    (fun n => .ok (some (n.length))) (fun n => some (n.length))
    (fun _ => str "x") 4 (fun _ => rfl)).1.trans (by decide)

/-! ### Lemmas about trimming and ref resolution -/

/-- Dropping while a predicate fails at the head drops nothing. -/
theorem dropWhile_head_false {p : Char → Bool} {l : Str}
    (h : ∀ c, l.head? = some c → p c = false) : l.dropWhile p = l := by
  cases l with
  | nil => rfl
  | cons a rest =>
    have := h a rfl
    simp [List.dropWhile_cons, this]

/-- The head character of a list is a member. -/
theorem mem_of_head?_eq {α : Type} {l : List α} {c : α}
    (h : l.head? = some c) : c ∈ l := by
  cases l with
  | nil => cases h
  | cons a rest =>
    rw [List.head?_cons] at h
    injection h with h
    rw [← h]
    exact List.mem_cons_self a rest

/-- The last character of a list is a member. -/
theorem mem_of_getLast?_eq {α : Type} {l : List α} {c : α}
    (h : l.getLast? = some c) : c ∈ l := by
  have hm : c ∈ l.getLast? := by rw [Option.mem_def]; exact h
  obtain ⟨hne, heq⟩ := List.mem_getLast?_eq_getLast hm
  rw [heq]
  exact List.getLast_mem hne

/-- A string with non-whitespace first and last characters trims to
itself. -/
theorem jsTrim_eq_self {l : Str}
    (h1 : ∀ c, l.head? = some c → jsWs c = false)
    (h2 : ∀ c, l.getLast? = some c → jsWs c = false) : jsTrim l = l := by
  unfold jsTrim
  rw [dropWhile_head_false h1]
  rw [dropWhile_head_false (by
    intro c hc
    rw [List.head?_reverse] at hc
    exact h2 c hc)]
  exact List.reverse_reverse l

/-- The selection loop keeps a member of the list that maximises the
measure (earlier elements win ties). -/
theorem pickLatestBy_spec (f : Nat → Int) (l : List Nat) (c : Nat)
    (h : pickLatestBy f l = some c) : c ∈ l ∧ ∀ d ∈ l, f d ≤ f c := by
  have aux : ∀ (xs : List Nat) (acc : Option Nat) (c : Nat),
      xs.foldl (pickStep f) acc = some c →
      (acc = some c ∨ c ∈ xs) ∧ (∀ d ∈ xs, f d ≤ f c) ∧
        (∀ b, acc = some b → f b ≤ f c) := by
    intro xs
    induction xs with
    | nil =>
      intro acc c h
      refine ⟨Or.inl h, by simp, ?_⟩
      intro b hb
      rw [hb] at h
      cases h
      exact le_refl _
    | cons x rest ih =>
      intro acc c h
      simp only [List.foldl_cons] at h
      obtain ⟨hmem, hrest, hacc⟩ := ih _ c h
      have hstep : ∀ b, pickStep f acc x = some b →
          f x ≤ f b ∧ (b = x ∨ acc = some b) := by
        intro b hb
        cases acc with
        | none =>
          simp only [pickStep] at hb
          cases hb
          exact ⟨le_refl _, Or.inl rfl⟩
        | some b0 =>
          simp only [pickStep] at hb
          by_cases hx : f x > f b0
          · rw [if_pos hx] at hb
            cases hb
            exact ⟨le_refl _, Or.inl rfl⟩
          · rw [if_neg hx] at hb
            cases hb
            exact ⟨le_of_not_lt hx, Or.inr rfl⟩
      have hsome : ∃ b, pickStep f acc x = some b := by
        cases acc with
        | none => exact ⟨x, rfl⟩
        | some b0 =>
          simp only [pickStep]
          by_cases hx : f x > f b0
          · rw [if_pos hx]; exact ⟨x, rfl⟩
          · rw [if_neg hx]; exact ⟨b0, rfl⟩
      obtain ⟨b', hb'⟩ := hsome
      have hfb' : f b' ≤ f c := hacc b' hb'
      have hxb' : f x ≤ f b' := (hstep b' hb').1
      constructor
      · rcases hmem with hstepc | hin
        · rcases (hstep c hstepc).2 with hcx | hacc'
          · exact Or.inr (by rw [hcx]; exact List.mem_cons_self x rest)
          · exact Or.inl hacc'
        · exact Or.inr (List.mem_cons_of_mem x hin)
      constructor
      · intro d hd
        rcases List.mem_cons.mp hd with hdx | hdin
        · rw [hdx]
          exact le_trans hxb' hfb'
        · exact hrest d hdin
      · intro b0 hb0
        rw [hb0] at hb'
        simp only [pickStep] at hb'
        by_cases hx : f x > f b0
        · rw [if_pos hx] at hb'
          cases hb'
          exact le_trans (le_of_lt hx) hfb'
        · rw [if_neg hx] at hb'
          cases hb'
          exact hfb'
  obtain ⟨hmem, hall, _⟩ := aux l none c h
  rcases hmem with habs | hin
  · cases habs
  · exact ⟨hin, hall⟩

/-- Claim C3 — counterexample.  `resolveLatestPrdRef` has no try/catch, so
when its underlying exec call throws (as `exec` can: the codebase guards
other call sites of `exec` with `try`/`.catch`), the exception propagates:
it does not hold that for every input resolution failure degrades silently
to the fallback. -/
theorem c3_counterexample :
    resolveLatestPrdRef (Except.error ()) = Except.error () := rfl

/-- Claim C3 — amended.  Whenever the underlying command invocation itself
returns a result, `resolveLatestPrdRef` never throws: it returns the
trimmed stdout — against a live repository, the hash of a most-recent
commit reachable from any branch that touched `prd.json` — when the
command succeeded with nonempty output, and falls back to `HEAD` when the
command failed, produced no output (no commit anywhere touched the ledger
path), or reported no toucher; a thrown invocation, however, propagates. -/
theorem c3_amended :
    (∀ r : ExecResult, ∃ v, resolveLatestPrdRef (.ok r) = .ok v) ∧
    (∀ r : ExecResult, r.success = true → (jsTrim r.stdout).isEmpty = false →
      resolveLatestPrdRef (.ok r) = .ok (jsTrim r.stdout)) ∧
    (∀ r : ExecResult, r.success = false ∨ (jsTrim r.stdout).isEmpty = true →
      resolveLatestPrdRef (.ok r) = .ok (str "HEAD")) ∧
    (∀ (rep : Repo) (c : Nat), latestPrdToucher rep = some c →
      (∀ ch ∈ rep.hashOf c, jsWs ch = false) → rep.hashOf c ≠ [] →
      resolveLatestPrdRef (prdRefExecOutcome rep) = .ok (rep.hashOf c)) ∧
    (∀ rep : Repo, latestPrdToucher rep = none →
      resolveLatestPrdRef (prdRefExecOutcome rep) = .ok (str "HEAD")) ∧
    (∀ (rep : Repo) (c : Nat), latestPrdToucher rep = some c →
      c ∈ rep.commits ∧
      (rep.refs.any (fun t => reaches rep.parents t c)) = true ∧
      rep.touchesPrd c = true ∧
      ∀ d ∈ rep.commits,
        (rep.refs.any (fun t => reaches rep.parents t d)) = true →
        rep.touchesPrd d = true → rep.dateOf d ≤ rep.dateOf c) := by
  refine ⟨?_, ?_, ?_, ?_, ?_, ?_⟩
  · intro r
    simp only [resolveLatestPrdRef]
    by_cases h : (r.success && !(jsTrim r.stdout).isEmpty) = true
    · rw [if_pos h]; exact ⟨_, rfl⟩
    · rw [if_neg h]; exact ⟨_, rfl⟩
  · intro r hs he
    simp only [resolveLatestPrdRef]
    rw [if_pos (by rw [hs, he]; rfl)]
  · intro r h
    simp only [resolveLatestPrdRef]
    rcases h with hs | he
    · rw [if_neg (by rw [hs]; simp)]
    · rw [if_neg (by rw [he]; simp)]
  · intro rep c hc hws hne
    have htrim : jsTrim (rep.hashOf c) = rep.hashOf c := by
      refine jsTrim_eq_self ?_ ?_
      · intro ch hch
        exact hws ch (mem_of_head?_eq hch)
      · intro ch hch
        exact hws ch (mem_of_getLast?_eq hch)
    have hor : prdRefExecOutcome rep = .ok ⟨true, rep.hashOf c, [], 0⟩ := by
      simp only [prdRefExecOutcome, hc]
    rw [hor]
    have hcond : ((⟨true, rep.hashOf c, [], 0⟩ : ExecResult).success &&
        !(jsTrim (⟨true, rep.hashOf c, [], 0⟩ : ExecResult).stdout).isEmpty)
          = true := by
      show ((true : Bool) && !(jsTrim (rep.hashOf c)).isEmpty) = true
      rw [htrim, Bool.true_and]
      cases hl : rep.hashOf c with
      | nil => exact absurd hl hne
      | cons a rest => rfl
    simp only [resolveLatestPrdRef]
    rw [if_pos hcond]
    show Except.ok (jsTrim (rep.hashOf c)) = _
    rw [htrim]
  · intro rep h
    have hor : prdRefExecOutcome rep = .ok ⟨true, [], [], 0⟩ := by
      simp only [prdRefExecOutcome, h]
    rw [hor]
    rfl
  · intro rep c hc
    unfold latestPrdToucher at hc
    obtain ⟨hmem, hmax⟩ := pickLatestBy_spec _ _ _ hc
    rw [List.mem_filter] at hmem
    have hpred := hmem.2
    rw [Bool.and_eq_true] at hpred
    refine ⟨hmem.1, hpred.1, hpred.2, ?_⟩
    intro d hd hany htouch
    exact hmax d (List.mem_filter.mpr ⟨hd, by rw [Bool.and_eq_true]; exact ⟨hany, htouch⟩⟩)

/-- Witness for the amended C3 theorem at concrete inputs: a successful
result with output resolves to its trimmed stdout, and a failed result
falls back to `HEAD`. -/
theorem c3_amended_witness :
    resolveLatestPrdRef (.ok ⟨true, str "abc1\n", [], 0⟩) = .ok (str "abc1") ∧
    resolveLatestPrdRef (.ok ⟨false, [], str "boom", 128⟩) = .ok (str "HEAD") :=
  ⟨(c3_amended.2.1 ⟨true, str "abc1\n", [], 0⟩ rfl (by decide)).trans
      (congrArg Except.ok (by decide)),
   c3_amended.2.2.1 ⟨false, [], str "boom", 128⟩ (Or.inl rfl)⟩

/-- Claim C4 — `readPrd` prefers the ledger at the resolved ref in the
shared repository; falls back to the on-disk working-directory copy
whenever the first attempt fails for any reason (repository absent, ref
resolution threw, file absent at the ref, or content malformed); and
returns `none` rather than throwing when both attempts fail — all
exceptional paths are caught, so the function is total into `Option`. -/
theorem c4_readPrd :
    (∀ (e : ReadPrdEnv) (p : PRD),
      readPrdStep1 e = .ok (some p) → readPrd e = some p) ∧
    (∀ e : ReadPrdEnv,
      readPrdStep1 e = .error () → readPrd e = readPrdFallback e) ∧
    (∀ e : ReadPrdEnv,
      readPrdStep1 e = .ok none → readPrd e = readPrdFallback e) ∧
    (∀ e : ReadPrdEnv,
      e.statRepo = .error () → readPrd e = readPrdFallback e) ∧
    (∀ e : ReadPrdEnv,
      e.refExec = .error () → readPrd e = readPrdFallback e) ∧
    (∀ (e : ReadPrdEnv) (r : ExecResult),
      e.showExec = .ok r → r.success = false →
      readPrd e = readPrdFallback e) ∧
    (∀ (e : ReadPrdEnv) (r : ExecResult),
      e.showExec = .ok r → r.success = true → e.parse r.stdout = none →
      readPrd e = readPrdFallback e) ∧
    (∀ e : ReadPrdEnv,
      (∀ p : PRD, readPrdStep1 e ≠ .ok (some p)) →
      readPrdFallback e = none → readPrd e = none) := by
  have hfall : ∀ e : ReadPrdEnv, (∀ p : PRD, readPrdStep1 e ≠ .ok (some p)) →
      readPrd e = readPrdFallback e := by
    intro e h
    unfold readPrd
    rcases hs : readPrdStep1 e with u | op
    · rfl
    · cases op with
      | none => rfl
      | some p => exact absurd hs (h p)
  have hstep1 : ∀ e : ReadPrdEnv, e.statRepo = .error () →
      readPrdStep1 e = .error () := by
    intro e h
    simp only [readPrdStep1, h]
  have hresolve : ∀ o : ExecOutcome, o = .error () ∨
      ∃ v, resolveLatestPrdRef o = .ok v := by
    intro o
    rcases o with u | r
    · left; rfl
    · right
      simp only [resolveLatestPrdRef]
      by_cases hc : (r.success && !(jsTrim r.stdout).isEmpty) = true
      · rw [if_pos hc]; exact ⟨_, rfl⟩
      · rw [if_neg hc]; exact ⟨_, rfl⟩
  have hstep2 : ∀ e : ReadPrdEnv, e.refExec = .error () →
      readPrdStep1 e = .error () ∨ readPrdStep1 e = .ok none := by
    intro e h
    left
    rcases hs : e.statRepo with u | u
    · simp only [readPrdStep1, hs]
    · simp only [readPrdStep1, hs, h, resolveLatestPrdRef]
  have hstep3 : ∀ (e : ReadPrdEnv) (r : ExecResult), e.showExec = .ok r →
      r.success = false →
      readPrdStep1 e = .error () ∨ readPrdStep1 e = .ok none := by
    intro e r hshow hfail
    rcases hs : e.statRepo with u | u
    · left
      simp only [readPrdStep1, hs]
    · rcases hresolve e.refExec with hr | ⟨v, hr⟩
      · left
        simp only [readPrdStep1, hs, hr, resolveLatestPrdRef]
      · right
        simp only [readPrdStep1, hs, hr, hshow, hfail]
        rfl
  have hstep4 : ∀ (e : ReadPrdEnv) (r : ExecResult), e.showExec = .ok r →
      r.success = true → e.parse r.stdout = none →
      readPrdStep1 e = .error () ∨ readPrdStep1 e = .ok none := by
    intro e r hshow hok hparse
    rcases hs : e.statRepo with u | u
    · left
      simp only [readPrdStep1, hs]
    · rcases hresolve e.refExec with hr | ⟨v, hr⟩
      · left
        simp only [readPrdStep1, hs, hr, resolveLatestPrdRef]
      · left
        simp only [readPrdStep1, hs, hr, hshow, hok, hparse]
        rfl
  have hne : ∀ (e : ReadPrdEnv),
      (readPrdStep1 e = .error () ∨ readPrdStep1 e = .ok none) →
      ∀ p : PRD, readPrdStep1 e ≠ .ok (some p) := by
    intro e h p hc
    rcases h with h | h <;> rw [h] at hc <;> cases hc
  refine ⟨?_, ?_, ?_, ?_, ?_, ?_, ?_, ?_⟩
  · intro e p h
    unfold readPrd
    rw [h]
  · intro e h
    exact hfall e (hne e (Or.inl h))
  · intro e h
    exact hfall e (hne e (Or.inr h))
  · intro e h
    exact hfall e (hne e (Or.inl (hstep1 e h)))
  · intro e h
    exact hfall e (hne e (hstep2 e h))
  · intro e r hshow hfail
    exact hfall e (hne e (hstep3 e r hshow hfail))
  · intro e r hshow hok hparse
    exact hfall e (hne e (hstep4 e r hshow hok hparse))
  · intro e h hf
    rw [hfall e h]
    exact hf

/-- Witness for C4 at a concrete environment: a successful bare-repo read
wins even though the working-directory fallback would fail. -/
theorem c4_witness :
    readPrd
      { statRepo := .ok (), refExec := .ok ⟨true, str "abc\n", [], 0⟩,
        showExec := .ok ⟨true, str "J", [], 0⟩, readWd := .error (),
        parse := fun t => if t = str "J" then some exC1BasePrd else none }
      = some exC1BasePrd :=
  c4_readPrd.1
    { statRepo := .ok (), refExec := .ok ⟨true, str "abc\n", [], 0⟩,
      showExec := .ok ⟨true, str "J", [], 0⟩, readWd := .error (),
      parse := fun t => if t = str "J" then some exC1BasePrd else none }
    exC1BasePrd rfl

/-! ### Split/join/parse roundtrip for git's oneline output -/

/-- Splitting never yields an empty list of fields. -/
theorem splitOnChar_ne_nil (sep : Char) (l : Str) : splitOnChar sep l ≠ [] := by
  induction l with
  | nil => simp [splitOnChar]
  | cons c rest ih =>
    rcases h : splitOnChar sep rest with _ | ⟨hd, tl⟩
    · exact absurd h ih
    · simp only [splitOnChar, h]
      by_cases hc : c = sep
      · simp [hc]
      · simp [hc]

/-- A separator-free string splits to a single field. -/
theorem splitOnChar_no_sep {sep : Char} {l : Str} (h : sep ∉ l) :
    splitOnChar sep l = [l] := by
  induction l with
  | nil => rfl
  | cons c rest ih =>
    have hc : c ≠ sep :=
      fun hc => h (by rw [hc]; exact List.mem_cons_self sep rest)
    simp only [splitOnChar, ih (fun hm => h (List.mem_cons_of_mem c hm))]
    simp [hc]

/-- Splitting a string that starts with a separator-free field followed by
a separator peels off that field. -/
theorem splitOnChar_field {sep : Char} {l rest : Str} (h : sep ∉ l) :
    splitOnChar sep (l ++ sep :: rest) = l :: splitOnChar sep rest := by
  induction l with
  | nil =>
    rcases hs : splitOnChar sep rest with _ | ⟨hd, tl⟩
    · exact absurd hs (splitOnChar_ne_nil sep rest)
    · simp only [List.nil_append, splitOnChar, hs]
      simp
  | cons c l' ih =>
    have hc : c ≠ sep := fun hc => h (by rw [hc]; exact List.mem_cons_self sep l')
    have h' : sep ∉ l' := fun hm => h (List.mem_cons_of_mem c hm)
    have hih := ih h'
    simp only [List.cons_append, splitOnChar, List.append_eq]
    rw [hih]
    simp [hc]

/-- Splitting undoes joining when no field contains the separator. -/
theorem splitOnChar_joinSep {sep : Char} :
    ∀ {lines : List Str}, lines ≠ [] → (∀ l ∈ lines, sep ∉ l) →
    splitOnChar sep (joinSep sep lines) = lines := by
  intro lines
  induction lines with
  | nil => intro h; exact absurd rfl h
  | cons l ls ih =>
    intro _ hall
    cases ls with
    | nil =>
      show splitOnChar sep (joinSep sep [l]) = [l]
      unfold joinSep
      exact splitOnChar_no_sep (hall l (List.mem_cons_self l []))
    | cons l2 ls2 =>
      show splitOnChar sep (joinSep sep (l :: l2 :: ls2)) = l :: l2 :: ls2
      have hj : joinSep sep (l :: l2 :: ls2) = l ++ sep :: joinSep sep (l2 :: ls2) := rfl
      rw [hj, splitOnChar_field (hall l (List.mem_cons_self l _))]
      rw [ih (by simp) (fun x hx => hall x (List.mem_cons_of_mem l hx))]

/-- A join of nonempty lines is nonempty. -/
theorem joinSep_ne_nil {sep : Char} :
    ∀ {lines : List Str}, lines ≠ [] → (∀ l ∈ lines, l ≠ []) →
    joinSep sep lines ≠ [] := by
  intro lines
  induction lines with
  | nil => intro h; exact absurd rfl h
  | cons l ls _ =>
    intro _ hall
    cases ls with
    | nil => exact hall l (List.mem_cons_self l [])
    | cons l2 ls2 =>
      show l ++ sep :: joinSep sep (l2 :: ls2) ≠ []
      simp

/-- The head character of a join of lines with a nonempty first line is
the first line's head. -/
theorem joinSep_head? {sep : Char} {l : Str} {ls : List Str} (h : l ≠ []) :
    (joinSep sep (l :: ls)).head? = l.head? := by
  cases ls with
  | nil => rfl
  | cons l2 ls2 =>
    show (l ++ sep :: joinSep sep (l2 :: ls2)).head? = l.head?
    cases l with
    | nil => exact absurd rfl h
    | cons a l' => rfl

/-- The last character of a join of nonempty lines is the last character
of one of the lines. -/
theorem joinSep_getLast?_mem {sep : Char} :
    ∀ {lines : List Str}, lines ≠ [] → (∀ l ∈ lines, l ≠ []) →
    ∀ ch, (joinSep sep lines).getLast? = some ch →
    ∃ l ∈ lines, l.getLast? = some ch := by
  intro lines
  induction lines with
  | nil => intro h; exact absurd rfl h
  | cons l ls ih =>
    intro _ hall ch hch
    cases ls with
    | nil =>
      exact ⟨l, List.mem_cons_self l [], hch⟩
    | cons l2 ls2 =>
      have hj : joinSep sep (l :: l2 :: ls2) = l ++ sep :: joinSep sep (l2 :: ls2) := rfl
      rw [hj, List.getLast?_append_cons] at hch
      have hne2 : joinSep sep (l2 :: ls2) ≠ [] :=
        joinSep_ne_nil (by simp) (fun x hx => hall x (List.mem_cons_of_mem l hx))
      rcases hj2 : joinSep sep (l2 :: ls2) with _ | ⟨b, j'⟩
      · exact absurd hj2 hne2
      · rw [hj2, List.getLast?_cons_cons] at hch
        rw [← hj2] at hch
        obtain ⟨x, hx, hxl⟩ := ih (by simp)
          (fun x hx => hall x (List.mem_cons_of_mem l hx)) ch hch
        exact ⟨x, List.mem_cons_of_mem l hx, hxl⟩

/-- `indexOf " "` on a space-free field followed by a space finds exactly
the end of the field. -/
theorem jsIndexOf_field {h m : Str} (hn : ' ' ∉ h) :
    jsIndexOf ' ' (h ++ ' ' :: m) = some h.length := by
  induction h with
  | nil =>
    simp [jsIndexOf]
  | cons a h' ih =>
    have ha : a ≠ ' ' := fun hc => hn (by rw [hc]; exact List.mem_cons_self ' ' h')
    simp only [List.cons_append, jsIndexOf, List.append_eq]
    rw [if_neg ha, ih (fun hm => hn (List.mem_cons_of_mem a hm))]
    rfl

/-- Splitting at the first space undoes `hash ++ " " ++ subject` when the
hash is space-free. -/
theorem splitFirstSpace_line {h m : Str} (hn : ' ' ∉ h) :
    splitFirstSpace (h ++ ' ' :: m) = (h, m) := by
  unfold splitFirstSpace
  rw [jsIndexOf_field hn]
  refine congrArg₂ Prod.mk ?_ ?_
  · exact List.take_left h (' ' :: m)
  · rw [show h ++ ' ' :: m = (h ++ [' ']) ++ m from by simp]
    rw [show h.length + 1 = (h ++ [' ']).length from by simp]
    exact List.drop_left (h ++ [' ']) m

/-- Parsing git's joined oneline output recovers exactly the
`(hash, subject)` pairs, for hygienic hashes and subjects. -/
theorem parseOneline_join (ps : List (Str × Str))
    (h : ∀ p ∈ ps, LineHygiene p) :
    parseOneline (joinSep '\n' (ps.map (fun p => p.1 ++ ' ' :: p.2))) = ps := by
  cases ps with
  | nil => rfl
  | cons p0 ps' =>
    set lines := (p0 :: ps').map (fun p => p.1 ++ ' ' :: p.2) with hlines
    have hlmem : ∀ l ∈ lines, ∃ p ∈ p0 :: ps', l = p.1 ++ ' ' :: p.2 := by
      intro l hl
      rw [hlines] at hl
      rw [List.mem_map] at hl
      obtain ⟨p, hp, hpe⟩ := hl
      exact ⟨p, hp, hpe.symm⟩
    have hlne : ∀ l ∈ lines, l ≠ [] := by
      intro l hl
      obtain ⟨p, _, hpe⟩ := hlmem l hl
      rw [hpe]
      exact List.append_ne_nil_of_right_ne_nil p.1 (by simp)
    have hlnn : ∀ l ∈ lines, '\n' ∉ l := by
      intro l hl
      obtain ⟨p, hp, hpe⟩ := hlmem l hl
      obtain ⟨h1ne, h1ws, h2ne, h2nn, _⟩ := h p hp
      rw [hpe]
      intro hm
      rcases List.mem_append.mp hm with hm1 | hm2
      · have := h1ws '\n' hm1
        simp [jsWs] at this
      · rcases List.mem_cons.mp hm2 with he | hm2'
        · cases he
        · exact h2nn hm2'
    have hlinesne : lines ≠ [] := by rw [hlines]; simp
    have htrim : jsTrim (joinSep '\n' lines) = joinSep '\n' lines := by
      refine jsTrim_eq_self ?_ ?_
      · intro c hc
        obtain ⟨h1ne, h1ws, _, _, _⟩ := h p0 (List.mem_cons_self p0 ps')
        rw [hlines] at hc
        rw [List.map_cons] at hc
        rw [joinSep_head? (by
          exact List.append_ne_nil_of_right_ne_nil p0.1 (by simp))] at hc
        rcases hp1 : p0.1 with _ | ⟨a, r⟩
        · exact absurd hp1 h1ne
        · rw [hp1] at hc
          simp only [List.cons_append, List.head?_cons] at hc
          injection hc with hc
          rw [← hc]
          exact h1ws a (by rw [hp1]; exact List.mem_cons_self a r)
      · intro c hc
        obtain ⟨l, hl, hll⟩ := joinSep_getLast?_mem hlinesne hlne c hc
        obtain ⟨p, hp, hpe⟩ := hlmem l hl
        obtain ⟨_, _, h2ne, _, h2l⟩ := h p hp
        rw [hpe, List.getLast?_append_cons] at hll
        rcases hp2 : p.2 with _ | ⟨b, r2⟩
        · exact absurd hp2 h2ne
        · rw [hp2, List.getLast?_cons_cons] at hll
          rw [hp2, hll] at h2l
          simpa using h2l
    unfold parseOneline
    rw [htrim]
    rw [splitOnChar_joinSep hlinesne hlnn]
    rw [List.filter_eq_self.mpr (by
      intro a ha
      simpa using hlne a ha)]
    rw [hlines]
    rw [List.map_map]
    have hmapid : ∀ p ∈ p0 :: ps',
        (splitFirstSpace ∘ fun q : Str × Str => q.1 ++ ' ' :: q.2) p = id p := by
      intro p hp
      obtain ⟨h1ne, h1ws, _, _, _⟩ := h p hp
      show splitFirstSpace (p.1 ++ ' ' :: p.2) = p
      rw [splitFirstSpace_line (fun hm => by
        have := h1ws ' ' hm
        simp [jsWs] at this)]
    rw [List.map_congr_left hmapid, List.map_id]

/-! ### Reachability lemmas -/

/-- More fuel never turns a reachable pair unreachable. -/
theorem reachesFuel_mono {par : Nat → List Nat} :
    ∀ {f f' a b : Nat}, f ≤ f' → reachesFuel par f a b = true →
    reachesFuel par f' a b = true := by
  intro f
  induction f with
  | zero => intro f' a b _ h; cases h
  | succ f ih =>
    intro f' a b hle h
    rcases f' with _ | f'
    · omega
    · simp only [reachesFuel, Bool.or_eq_true] at h
      simp only [reachesFuel, Bool.or_eq_true]
      rcases h with h | h
      · exact Or.inl h
      · rw [List.any_eq_true] at h
        obtain ⟨p, hp, hr⟩ := h
        right
        rw [List.any_eq_true]
        exact ⟨p, hp, ih (by omega) hr⟩

/-- For strictly decreasing parent maps, the fuelled walk with fuel
`a + 1` decides exactly the inductive ancestry relation: the model's
`reaches` is genuine graph reachability. -/
theorem reaches_iff_reachesProp {par : Nat → List Nat}
    (hdec : ∀ a p, p ∈ par a → p < a) (a b : Nat) :
    reaches par a b = true ↔ ReachesProp par a b := by
  constructor
  · have : ∀ (f a b : Nat), reachesFuel par f a b = true → ReachesProp par a b := by
      intro f
      induction f with
      | zero => intro a b h; cases h
      | succ f ih =>
        intro a b h
        simp only [reachesFuel, Bool.or_eq_true] at h
        rcases h with h | h
        · have hab : a = b := by simpa using h
          rw [hab]
          exact ReachesProp.refl b
        · rw [List.any_eq_true] at h
          obtain ⟨p, hp, hr⟩ := h
          exact ReachesProp.step hp (ih p b hr)
    exact this (a + 1) a b
  · intro h
    have main : ∀ a : Nat, ∀ b : Nat, ReachesProp par a b →
        reachesFuel par (a + 1) a b = true := by
      intro a
      induction a using Nat.strong_induction_on with
      | _ a ih =>
        intro b h
        cases h with
        | refl =>
          simp [reachesFuel]
        | step hp hrest =>
          rename_i p
          have hlt := hdec a p hp
          have hrec := ih p hlt _ hrest
          simp only [reachesFuel, Bool.or_eq_true]
          right
          rw [List.any_eq_true]
          exact ⟨p, hp, reachesFuel_mono (by omega) hrec⟩
    exact main a b h

/-- Reachability transfers along an append-only extension, for start nodes
inside the original repository. -/
theorem reachesFuel_extends {r r' : Repo} (hwf : r.WF) (hext : r.Extends r') :
    ∀ (f a b : Nat), a ∈ r.commits → reachesFuel r.parents f a b = true →
    reachesFuel r'.parents f a b = true := by
  intro f
  induction f with
  | zero => intro a b _ h; cases h
  | succ f ih =>
    intro a b ha h
    simp only [reachesFuel, Bool.or_eq_true] at h
    simp only [reachesFuel, Bool.or_eq_true]
    rcases h with h | h
    · exact Or.inl h
    · right
      rw [List.any_eq_true] at h
      obtain ⟨p, hp, hr⟩ := h
      have hpc : p ∈ r.commits := (hwf.1 a ha p hp).1
      rw [List.any_eq_true]
      refine ⟨p, ?_, ih p b hpc hr⟩
      rw [hext.2.1 a ha]
      exact hp

/-- `reaches` transfers along an append-only extension. -/
theorem reaches_extends {r r' : Repo} (hwf : r.WF) (hext : r.Extends r')
    {a b : Nat} (ha : a ∈ r.commits) (h : reaches r.parents a b = true) :
    reaches r'.parents a b = true :=
  reachesFuel_extends hwf hext (a + 1) a b ha h

/-- The handler's parsed `new_commits` list is exactly the hash/subject
pairs of the commits in `since..HEAD --all`. -/
theorem handlerNewCommits_eq (r : Repo) (s : Nat) (hyg : r.Hygiene) :
    handlerNewCommits r s =
      (rangeAll r s).map (fun c => (r.hashOf c, r.subjectOf c)) := by
  have hrange : ∀ c ∈ rangeAll r s, c ∈ r.commits := by
    intro c hc
    exact (List.mem_filter.mp hc).1
  have hjoin : gitLogStdout r s =
      joinSep '\n'
        (((rangeAll r s).map (fun c => (r.hashOf c, r.subjectOf c))).map
          (fun p => p.1 ++ ' ' :: p.2)) := by
    unfold gitLogStdout
    rw [List.map_map]
    rfl
  show newCommitsOf (.ok ⟨true, gitLogStdout r s, [], 0⟩) = _
  unfold newCommitsOf catchToFailed
  rw [if_pos rfl]
  show parseOneline (gitLogStdout r s) = _
  rw [hjoin]
  refine parseOneline_join _ ?_
  intro p hp
  rw [List.mem_map] at hp
  obtain ⟨c, hc, hce⟩ := hp
  rw [← hce]
  exact hyg c (hrange c hc)

/-- Claim C2 — counterexample.  With a side-branch commit not reachable
from `HEAD` (the normal shape of this system's history, where workers push
to working branches), chaining `latest_commit` into `since_commit` reports
the side-branch commit's hash in two consecutive calls, and the second
call's `new_commits` is nonempty although no commit was added between the
calls. -/
theorem c2_counterexample :
    (str "c2", str "m") ∈ handlerNewCommits exRepo 0 ∧
    handlerLatest exRepo = str "c1" ∧
    (str "c2", str "m") ∈ handlerNewCommits exRepo 1 ∧
    handlerNewCommits exRepo 1 ≠ [] := by
  refine ⟨by decide, by decide, by decide, by decide⟩

/-- Claim C2 — amended.  Monotonic polling holds under the added hypothesis
that every commit of the repository at the first call is reachable from
`HEAD`: then the second call (on any append-only extension, passing the
first call's `latest_commit` head as `since_commit`) never repeats a hash
of the first call, and reports no commits at all when none were added
between the calls.  Without that hypothesis the property fails
(side-branch commits are re-reported forever, see the counterexample). -/
theorem c2_amended (r r' : Repo) (hwf : r.WF)
    (hext : r.Extends r')
    (hall : ∀ c ∈ r.commits, reaches r.parents r.head c = true)
    (hyg : r.Hygiene) (hyg' : r'.Hygiene)
    (hinj : ∀ a ∈ r'.commits, ∀ b ∈ r'.commits,
      r'.hashOf a = r'.hashOf b → a = b) :
    (∀ (s₀ : Nat) (hm hm' : Str × Str),
      hm ∈ handlerNewCommits r s₀ →
      hm' ∈ handlerNewCommits r' r.head → hm.1 ≠ hm'.1) ∧
    ((∀ c ∈ r'.commits, c ∈ r.commits) →
      handlerNewCommits r' r.head = []) := by
  have hnotin : ∀ c' ∈ r'.commits, c' ∈ r.commits →
      c' ∉ rangeAll r' r.head := by
    intro c' _ hcr hc'
    have hr : reaches r'.parents r.head c' = true :=
      reaches_extends hwf hext hwf.2.1 (hall c' hcr)
    have hpred := (List.mem_filter.mp hc').2
    rw [Bool.and_eq_true] at hpred
    have := hpred.2
    rw [hr] at this
    cases this
  constructor
  · intro s₀ hm hm' h1 h2 heq
    rw [handlerNewCommits_eq r s₀ hyg] at h1
    rw [handlerNewCommits_eq r' r.head hyg'] at h2
    rw [List.mem_map] at h1 h2
    obtain ⟨c, hc, hce⟩ := h1
    obtain ⟨c', hc', hce'⟩ := h2
    have hcr : c ∈ r.commits := (List.mem_filter.mp hc).1
    have hcr' : c' ∈ r'.commits := (List.mem_filter.mp hc').1
    have hhash : r'.hashOf c = r'.hashOf c' := by
      rw [hext.2.2 c hcr]
      rw [← hce] at heq
      rw [← hce'] at heq
      exact heq
    have hcc : c = c' := hinj c (hext.1 c hcr) c' hcr' hhash
    rw [← hcc] at hc'
    exact hnotin c (hext.1 c hcr) hcr hc'
  · intro hsame
    rw [handlerNewCommits_eq r' r.head hyg']
    have : rangeAll r' r.head = [] := by
      rcases he : rangeAll r' r.head with _ | ⟨c', cs⟩
      · rfl
      · have hmem : c' ∈ rangeAll r' r.head := by
          rw [he]; exact List.mem_cons_self c' cs
        have hcr' : c' ∈ r'.commits := (List.mem_filter.mp hmem).1
        exact absurd hmem (hnotin c' hcr' (hsame c' hcr'))
    rw [this]
    rfl

/-- Witness for the amended C2 theorem at concrete repositories: a linear
two-commit history extended by one commit; the hash reported by the first
call differs from the one reported by the chained second call. -/
theorem c2_amended_witness :
    ((str "h1", str "s") : Str × Str).1 ≠ ((str "h2", str "s") : Str × Str).1 :=
  (c2_amended rlin rlinNext (by decide) (by decide) (by decide)
      (by decide) (by decide) (by decide)).1
    0 (str "h1", str "s") (str "h2", str "s") (by decide) (by decide)

/-- Claim C10 — a successful `add_story` appends a story with
`passes = false`, `claimed_by = null`, and a present `verified = false`;
consequently the resulting snapshot has the verification toggle in use,
and under the grouped read every passing, unverified story of that
snapshot (including pre-existing ones with no `verified` field) reads as
`verifying`, not `done`. -/
theorem c10_addStory :
    (∀ (prd : PRD) (s : StoryInput) (prd' : PRD),
      addStory prd s = .ok prd' →
      ∃ ns : UserStory,
        prd'.userStories = prd.userStories ++ [ns] ∧
        ns.id = s.id ∧ ns.passes = false ∧ ns.claimed_by = none ∧
        ns.verified = some false) ∧
    (∀ (prd : PRD) (s : StoryInput) (prd' : PRD),
      addStory prd s = .ok prd' → hasVerifiers prd' = true) ∧
    (∀ (prd' : PRD) (st : UserStory),
      hasVerifiers prd' = true → st ∈ prd'.userStories → st.passes = true →
      st.verified ≠ some true →
      st ∈ effectiveVerifying prd' ∧ st ∉ effectiveDone prd') := by
  have h1 : ∀ (prd : PRD) (s : StoryInput) (prd' : PRD),
      addStory prd s = .ok prd' →
      ∃ ns : UserStory,
        prd'.userStories = prd.userStories ++ [ns] ∧
        ns.id = s.id ∧ ns.passes = false ∧ ns.claimed_by = none ∧
        ns.verified = some false := by
    intro prd s prd' h
    by_cases hguard : (!strTruthy s.title || !strTruthy s.description ||
        s.acceptanceCriteria.isNone) = true
    · simp only [addStory] at h
      rw [if_pos hguard] at h
      cases h
    · simp only [addStory] at h
      rw [if_neg hguard] at h
      rcases hf : prd.userStories.find? (fun st => st.id = s.id) with _ | st0
      · rw [hf] at h
        injection h with h
        refine ⟨mkNewStory prd s, ?_, rfl, rfl, rfl, rfl⟩
        rw [← h]
      · rw [hf] at h
        cases h
  refine ⟨h1, ?_, ?_⟩
  · intro prd s prd' h
    obtain ⟨ns, hst, _, _, _, hsv⟩ := h1 prd s prd' h
    unfold hasVerifiers
    rw [hst, List.any_append]
    have : [ns].any (fun s => s.verified.isSome) = true := by
      rw [List.any_cons]
      rw [hsv]
      rfl
    rw [this, Bool.or_true]
  · intro prd' st hv hm hp hnv
    constructor
    · exact (mem_effectiveVerifying_iff prd' st).mpr ⟨hv, hm, hp, hnv⟩
    · intro hc
      obtain ⟨_, _, himp⟩ := (mem_effectiveDone_iff prd' st).mp hc
      exact hnv (himp hv)

/-- Witness for C10 at a concrete ledger: adding a story to a ledger whose
only story is passing and unverified turns the toggle on, and that
pre-existing story lands in the `verifying` group. -/
theorem c10_witness :
    hasVerifiers exAddResult = true ∧
    exOldPassing ∈ effectiveVerifying exAddResult :=
  ⟨c10_addStory.2.1 exAddBase exAddInput exAddResult rfl,
   (c10_addStory.2.2 exAddResult exOldPassing
      (c10_addStory.2.1 exAddBase exAddInput exAddResult rfl)
      (by decide) rfl (by decide)).1⟩

/-- Claim C8 — the aggregator's resolution fallbacks: an absent (or falsy)
`since_commit` resolves to the first line of the parentless-commit
listing — against a live repository, the hash of a root commit reachable
from `HEAD` — when that call returns success; a failed timestamp lookup
yields epoch `0`, and a successful numeric one yields seconds times 1000;
and the commit-range listing collapses to the empty list on a thrown or
failed exec rather than an error. -/
theorem c8_resolution_fallbacks :
    (∀ rootExec : ExecResult, rootExec.success = true →
      resolveSinceCommit none (.ok rootExec) =
        .ok ((splitOnChar '\n' (jsTrim rootExec.stdout)).headD [])) ∧
    (∀ (rep : Repo), rep.Hygiene → ∀ (c0 : Nat) (cs : List Nat),
      rep.commits.filter (fun c =>
          reaches rep.parents rep.head c && (rep.parents c).isEmpty) =
        c0 :: cs →
      resolveSinceCommit none (.ok ⟨true, rootListStdout rep, [], 0⟩) =
          .ok (rep.hashOf c0) ∧
        rep.parents c0 = [] ∧ reaches rep.parents rep.head c0 = true) ∧
    (∀ r : ExecResult, r.success = false →
      resolveSinceTimestamp (.ok r) = .ok (some 0)) ∧
    (∀ (r : ExecResult) (v : Int), r.success = true →
      jsParseInt (jsTrim r.stdout) = some v →
      resolveSinceTimestamp (.ok r) = .ok (some (v * 1000))) ∧
    newCommitsOf (.error ()) = [] ∧
    (∀ r : ExecResult, r.success = false → newCommitsOf (.ok r) = []) := by
  have hroot : ∀ rootExec : ExecResult, rootExec.success = true →
      resolveSinceCommit none (.ok rootExec) =
        .ok ((splitOnChar '\n' (jsTrim rootExec.stdout)).headD []) := by
    intro rootExec hs
    simp [resolveSinceCommit, strTruthy, hs]
  refine ⟨hroot, ?_, ?_, ?_, rfl, ?_⟩
  · intro rep hyg c0 cs hroots
    have hcs : ∀ c ∈ c0 :: cs, c ∈ rep.commits := by
      intro c hc
      rw [← hroots] at hc
      exact (List.mem_filter.mp hc).1
    have hhash : ∀ c ∈ c0 :: cs,
        rep.hashOf c ≠ [] ∧ ∀ ch ∈ rep.hashOf c, jsWs ch = false := by
      intro c hc
      obtain ⟨h1, h2, _⟩ := hyg c (hcs c hc)
      exact ⟨h1, h2⟩
    have hll : rootListStdout rep = joinSep '\n' ((c0 :: cs).map rep.hashOf) := by
      unfold rootListStdout
      rw [hroots]
    have hlne : ∀ l ∈ (c0 :: cs).map rep.hashOf, l ≠ [] := by
      intro l hl
      rw [List.mem_map] at hl
      obtain ⟨c, hc, hce⟩ := hl
      rw [← hce]
      exact (hhash c hc).1
    have htrim : jsTrim (rootListStdout rep) = rootListStdout rep := by
      rw [hll]
      refine jsTrim_eq_self ?_ ?_
      · intro ch hch
        rw [List.map_cons] at hch
        rw [joinSep_head? ((hhash c0 (List.mem_cons_self c0 cs)).1)] at hch
        exact (hhash c0 (List.mem_cons_self c0 cs)).2 ch (mem_of_head?_eq hch)
      · intro ch hch
        obtain ⟨l, hl, hle⟩ := joinSep_getLast?_mem (by simp) hlne ch hch
        rw [List.mem_map] at hl
        obtain ⟨c, hc, hce⟩ := hl
        rw [← hce] at hle
        exact (hhash c hc).2 ch (mem_of_getLast?_eq hle)
    have hsplit :
        splitOnChar '\n' (rootListStdout rep) = (c0 :: cs).map rep.hashOf := by
      rw [hll]
      refine splitOnChar_joinSep (by simp) ?_
      intro l hl hnl
      rw [List.mem_map] at hl
      obtain ⟨c, hc, hce⟩ := hl
      rw [← hce] at hnl
      have := (hhash c hc).2 '\n' hnl
      simp [jsWs] at this
    have hpred := List.mem_filter.mp (by
      rw [hroots]; exact List.mem_cons_self c0 cs)
    rw [Bool.and_eq_true] at hpred
    refine ⟨?_, by simpa using hpred.2.2, hpred.2.1⟩
    rw [hroot ⟨true, rootListStdout rep, [], 0⟩ rfl]
    show Except.ok ((splitOnChar '\n' (jsTrim (rootListStdout rep))).headD []) = _
    rw [htrim, hsplit]
    rfl
  · intro r h
    simp [resolveSinceTimestamp, h]
  · intro r v hs hv
    simp [resolveSinceTimestamp, hs, hv]
  · intro r h
    simp [newCommitsOf, catchToFailed, h]

/-- Witness for C8 at concrete inputs: the root commit of the linear
witness repository resolves as the fallback `since_commit`, a failed
timestamp lookup yields epoch zero, and a thrown range listing yields no
commits. -/
theorem c8_witness :
    resolveSinceCommit none
        (.ok ⟨true, rootListStdout rlinNext, [], 0⟩) =
      .ok (str "h0") ∧
    resolveSinceTimestamp (.ok ⟨false, [], [], 128⟩) = .ok (some 0) := by
  constructor
  · exact (c8_resolution_fallbacks.2.1 rlinNext (by decide) 0 [] (by decide)).1
  · exact c8_resolution_fallbacks.2.2.1 ⟨false, [], [], 128⟩ rfl

end RalphMcp
